import Mathlib

/-!
Verification of the slide layout and font sizing engine of the
Presentation Architect repository: the text math segmenter (`SmartText`),
the font size estimator (`getDynamicFontSize`) and the layout template
dispatch (`renderLayout`) from the slide renderer component, together with
the `Slide` record from `types.ts`.

JavaScript numbers are modelled as exact rationals; the CSS pixel strings
produced by the component are modelled by their numeric values, and text is
modelled as lists of characters where the scanning structure matters.
-/

namespace PresentationArchitect

/-- The `Slide` record from `types.ts`.  The layout tag is kept as a raw
string: at runtime the renderer dispatches on the string value and has a
default arm for unrecognized tags. -/
structure Slide where
  id : String
  title : String
  subtitle : Option String
  content : List String
  layout : String
  notes : Option String
  imageUrl : Option String
  imagePrompt : Option String
deriving DecidableEq

/-- `getDynamicFontSize(content, baseSize, minSize)` from the slide
renderer, with the component level `isThumbnail` flag passed explicitly.
Returns the numeric value of the produced `px` quantity. -/
def getDynamicFontSize (isThumbnail : Bool) (content : List String)
    (baseSize minSize : ℚ) : ℚ :=
  if isThumbnail then baseSize * 0.4
  else
    let textLength : ℕ := (String.join content).length
    let lineCount : ℕ := content.length
    let complexity : ℕ := textLength + lineCount * 40
    let easyThreshold : ℚ := 300
    let hardLimit : ℚ := 1200
    if (complexity : ℚ) ≤ easyThreshold then baseSize
    else
      let scale : ℚ := max (minSize / baseSize)
        (1 - (((complexity : ℚ) - easyThreshold) / (hardLimit - easyThreshold)) * 0.6)
      ((⌊baseSize * scale⌋ : ℤ) : ℚ)

/-- The complexity proxy used by the estimator: total character count of
the content plus forty per line. -/
def complexity (content : List String) : ℕ :=
  (String.join content).length + content.length * 40

/-- The full (non thumbnail) mode of the estimator as a function of the
complexity value alone; `getDynamicFontSize false` factors through it. -/
def fullSize (baseSize minSize : ℚ) (c : ℕ) : ℚ :=
  if (c : ℚ) ≤ 300 then baseSize
  else ((⌊baseSize * max (minSize / baseSize)
    (1 - (((c : ℚ) - 300) / (1200 - 300)) * 0.6)⌋ : ℤ) : ℚ)

/-- A classified run of a text field, as rendered by `SmartText`: plain
text, inline math (`$x$`, delimiters stripped) or block math (`$$y$$`,
delimiters stripped). -/
inductive Segment where
  | plain : List Char → Segment
  | inlineMath : List Char → Segment
  | blockMath : List Char → Segment
deriving DecidableEq

/-- Lazy scan for the regex tail `.*?\$`: the shortest span (newline free,
since `.` does not match a newline) up to a closing single dollar. -/
def scanInline : List Char → Option (List Char × List Char)
  | [] => none
  | c :: rest =>
    if c = '$' then some ([], rest)
    else if c = '\n' then none
    else (scanInline rest).map fun p => (c :: p.1, p.2)

/-- Lazy scan for the regex tail `.*?\$\$`: the shortest span (newline
free) up to a closing adjacent pair of dollars. -/
def scanBlock : List Char → Option (List Char × List Char)
  | [] => none
  | c :: rest =>
    if c = '$' ∧ rest.head? = some '$' then some ([], rest.tail)
    else if c = '\n' then none
    else (scanBlock rest).map fun p => (c :: p.1, p.2)

/-- One attempt of the alternation `\$\$.*?\$\$|\$.*?\$` anchored at the
head of the list: the block alternative is tried first, then the inline
one, following regex alternation order.  Returns the matched span and the
remainder.  When the block alternative sees `$$` but finds no closing
`$$`, the inline alternative immediately matches those same two dollars. -/
def matchAt : List Char → Option (List Char × List Char)
  | [] => none
  | [_] => none
  | c :: c' :: rest =>
    if c = '$' then
      if c' = '$' then
        match scanBlock rest with
        | some (u, r) => some ('$' :: '$' :: (u ++ ['$', '$']), r)
        | none => some (['$', '$'], rest)
      else
        match scanInline (c' :: rest) with
        | some (u, r) => some ('$' :: (u ++ ['$']), r)
        | none => none
    else none

/-- Fuel bounded worker for the splitter.  The fuel only serves to make
the recursion structural; `splitMath` supplies the string length, which
the length bound on `matchAt` makes sufficient, so the `0` arm is never
reached on those calls. -/
def splitMathAux : ℕ → List Char → List (List Char)
  | _, [] => [[]]
  | 0, l => [l]
  | fuel + 1, c :: t =>
    match matchAt (c :: t) with
    | some (m, r) => [] :: m :: splitMathAux fuel r
    | none =>
      match splitMathAux fuel t with
      | [] => [[c]]
      | p :: ps => (c :: p) :: ps

/-- `text.split(/(\$\$.*?\$\$|\$.*?\$)/g)` from `SmartText`: the pieces of
the string between the non overlapping leftmost matches of the pattern,
interleaved with the captured matches themselves, empty pieces included
(JavaScript `split` with a capturing group keeps them). -/
def splitMath (l : List Char) : List (List Char) :=
  splitMathAux l.length l

/-- JS `slice(a, -b)` on a string: drop the first `a` and the last `b`
characters (empty when the string is shorter than `a + b`). -/
def sliceDrop (a b : ℕ) (l : List Char) : List Char :=
  (l.take (l.length - b)).drop a

/-- The per part classification performed by `SmartText` over the split
result: `startsWith('$$') && endsWith('$$')` gives a block segment with
payload `slice(2, -2)`, else `startsWith('$') && endsWith('$')` gives an
inline segment with payload `slice(1, -1)`, else a plain segment. -/
def classifyPart (p : List Char) : Segment :=
  if p.take 2 = ['$', '$'] ∧ p.reverse.take 2 = ['$', '$'] then
    Segment.blockMath (sliceDrop 2 2 p)
  else if p.take 1 = ['$'] ∧ p.reverse.take 1 = ['$'] then
    Segment.inlineMath (sliceDrop 1 1 p)
  else Segment.plain p

/-- The segmentation performed by `SmartText`: empty text renders nothing;
a string that starts and ends with `$$` (no trimming) is a single block
math segment; otherwise the string is split on the math pattern and each
part classified. -/
def segment (t : List Char) : List Segment :=
  if t = [] then []
  else if t.take 2 = ['$', '$'] ∧ t.reverse.take 2 = ['$', '$'] then
    [Segment.blockMath (sliceDrop 2 2 t)]
  else (splitMath t).map classifyPart

/-- Re-render a segment to source text, restoring the delimiters that
`SmartText` stripped. -/
def renderSegment : Segment → List Char
  | Segment.plain s => s
  | Segment.inlineMath s => '$' :: (s ++ ['$'])
  | Segment.blockMath s => '$' :: '$' :: (s ++ ['$', '$'])

/-- Concatenation of re-rendered segments. -/
def reconstruct (segs : List Segment) : List Char :=
  (segs.map renderSegment).flatten

/-- Strings whose dollar delimiters are balanced: concatenations of
dollar free plain characters, inline math `$x$` with a nonempty dollar
free payload, and block math `$$y$$` with a dollar free payload.  Math
payloads are newline free because the scanner's `.` does not cross a
newline. -/
inductive Balanced : List Char → Prop
  | nil : Balanced []
  | plainChar {c : Char} {l : List Char} : c ≠ '$' → Balanced l →
      Balanced (c :: l)
  | inlineTok {x l : List Char} : x ≠ [] → (∀ c ∈ x, c ≠ '$' ∧ c ≠ '\n') →
      Balanced l → Balanced ('$' :: (x ++ ('$' :: l)))
  | blockTok {y l : List Char} : (∀ c ∈ y, c ≠ '$' ∧ c ≠ '\n') →
      Balanced l → Balanced ('$' :: '$' :: (y ++ ('$' :: '$' :: l)))

/-- JS truthiness of an optional string: `undefined` and the empty string
are both falsy. -/
def truthyStr : Option String → Option String
  | none => none
  | some s => if s = "" then none else some s

/-- `Math.ceil(n / 2)` on a natural number. -/
def ceilHalf (n : ℕ) : ℕ := (n + 1) / 2

/-- The geometry relevant output of one `renderLayout` arm: which template
was selected, the text fed to each slot and the computed font sizes.  The
transient image loading flag is a pure opacity toggle and is omitted. -/
inductive Rendered where
  | titleCard (title : String) (titleSize : ℚ)
      (subtitle : Option (String × ℚ)) : Rendered
  | quoteCard (showMark : Bool) (body : Option String) (bodySize : ℚ)
      (attribution : String) (attributionSize : ℚ) : Rendered
  | imageCard (imageLeft : Bool) (imageUrl : Option String) (title : String)
      (items : List String) (itemsSize : ℚ) : Rendered
  | splitCard (title : String) (leftItems rightItems : List String)
      (bodySize : ℚ) : Rendered
  | contentCard (title : String) (titleSize : ℚ) (items : List String)
      (itemsSize : ℚ) : Rendered
deriving DecidableEq

/-- The `renderLayout` switch from the slide renderer: dispatches on the
slide's layout tag, falling through to the `content` arm for the
`content` tag and for any unrecognized tag.  Each arm records the slot
texts and the size constants of the source. -/
def renderLayout (isThumbnail : Bool) (slide : Slide) : Rendered :=
  if slide.layout = "title" then
    Rendered.titleCard slide.title
      (getDynamicFontSize isThumbnail [slide.title]
        (if isThumbnail then 24 else 64) (if isThumbnail then 12 else 32))
      ((truthyStr slide.subtitle).map fun s =>
        (s, getDynamicFontSize isThumbnail [s]
          (if isThumbnail then 12 else 28) (if isThumbnail then 8 else 16)))
  else if slide.layout = "quote" then
    Rendered.quoteCard (!isThumbnail) slide.content.head?
      (getDynamicFontSize isThumbnail slide.content
        (if isThumbnail then 14 else 40) (if isThumbnail then 10 else 20))
      slide.title (if isThumbnail then 10 else 20)
  else if slide.layout = "image-left" ∨ slide.layout = "image-right" then
    Rendered.imageCard (decide (slide.layout = "image-left"))
      (truthyStr slide.imageUrl) slide.title slide.content
      (getDynamicFontSize isThumbnail slide.content
        (if isThumbnail then 10 else 20) (if isThumbnail then 8 else 12))
  else if slide.layout = "split" then
    Rendered.splitCard slide.title
      (slide.content.take (ceilHalf slide.content.length))
      (slide.content.drop (ceilHalf slide.content.length))
      (getDynamicFontSize isThumbnail slide.content
        (if isThumbnail then 9 else 18) (if isThumbnail then 7 else 12))
  else
    Rendered.contentCard slide.title (if isThumbnail then 16 else 44)
      slide.content
      (getDynamicFontSize isThumbnail slide.content
        (if isThumbnail then 11 else 26) (if isThumbnail then 9 else 14))

/-! ### Helper lemmas about the scanners and the splitter -/

/-- Length bound for `scanInline`. -/
theorem scanInline_length {l u r : List Char}
    (h : scanInline l = some (u, r)) : r.length < l.length := by
  induction l generalizing u r with
  | nil => simp [scanInline] at h
  | cons c t ih =>
    rw [scanInline] at h
    split_ifs at h with h1 h2
    · cases h
      exact Nat.lt_succ_self _
    · cases hm : scanInline t with
      | none => rw [hm] at h; cases h
      | some p =>
        rw [hm] at h
        cases h
        exact Nat.lt_succ_of_lt (ih hm)

/-- Length bound for `scanBlock`. -/
theorem scanBlock_length {l u r : List Char}
    (h : scanBlock l = some (u, r)) : r.length < l.length := by
  induction l generalizing u r with
  | nil => simp [scanBlock] at h
  | cons c t ih =>
    rw [scanBlock] at h
    split_ifs at h with h1 h2
    · cases h
      cases t with
      | nil => simp at h1
      | cons b bs => simp only [List.tail_cons, List.length_cons]; omega
    · cases hm : scanBlock t with
      | none => rw [hm] at h; cases h
      | some p =>
        rw [hm] at h
        cases h
        exact Nat.lt_succ_of_lt (ih hm)

/-- Length bound for `matchAt`. -/
theorem matchAt_length {l m r : List Char}
    (h : matchAt l = some (m, r)) : r.length < l.length := by
  cases l with
  | nil => simp [matchAt] at h
  | cons c t =>
    cases t with
    | nil => simp [matchAt] at h
    | cons c' t' =>
      rw [matchAt] at h
      split_ifs at h with h1 h2
      · cases hb : scanBlock t' with
        | none =>
          rw [hb] at h
          cases h
          simp only [List.length_cons]
          omega
        | some p =>
          obtain ⟨u, r'⟩ := p
          rw [hb] at h
          cases h
          have := scanBlock_length hb
          simp only [List.length_cons]
          omega
      · cases hi : scanInline (c' :: t') with
        | none => rw [hi] at h; cases h
        | some p =>
          obtain ⟨u, r'⟩ := p
          rw [hi] at h
          cases h
          have := scanInline_length hi
          simp only [List.length_cons] at this ⊢
          omega

/-- The fuel of `splitMathAux` does not matter as long as it dominates the
length of the input. -/
theorem splitMathAux_fuel : ∀ (f₁ f₂ : ℕ) (l : List Char),
    l.length ≤ f₁ → l.length ≤ f₂ → splitMathAux f₁ l = splitMathAux f₂ l := by
  intro f₁
  induction f₁ with
  | zero =>
    intro f₂ l h1 h2
    cases l with
    | nil => cases f₂ <;> rfl
    | cons c t => simp at h1
  | succ f ih =>
    intro f₂ l h1 h2
    cases l with
    | nil => cases f₂ <;> rfl
    | cons c t =>
      cases f₂ with
      | zero => simp at h2
      | succ f' =>
        simp only [List.length_cons] at h1 h2
        rw [splitMathAux, splitMathAux]
        cases hm : matchAt (c :: t) with
        | some p =>
          obtain ⟨m, r⟩ := p
          have hr := matchAt_length hm
          simp only [List.length_cons] at hr
          show [] :: m :: splitMathAux f r = [] :: m :: splitMathAux f' r
          rw [ih f' r (by omega) (by omega)]
        | none =>
          show (match splitMathAux f t with
              | [] => [[c]]
              | p :: ps => (c :: p) :: ps) =
            (match splitMathAux f' t with
              | [] => [[c]]
              | p :: ps => (c :: p) :: ps)
          rw [ih f' t (by omega) (by omega)]

/-- Unfolding equation of `splitMath` at a match. -/
theorem splitMath_cons_some {c : Char} {t m r : List Char}
    (h : matchAt (c :: t) = some (m, r)) :
    splitMath (c :: t) = [] :: m :: splitMath r := by
  have hr := matchAt_length h
  simp only [List.length_cons] at hr
  unfold splitMath
  simp only [List.length_cons]
  rw [splitMathAux, h]
  show [] :: m :: splitMathAux t.length r = [] :: m :: splitMathAux r.length r
  rw [splitMathAux_fuel t.length r.length r (by omega) (by omega)]

/-- Unfolding equation of `splitMath` at a non match. -/
theorem splitMath_cons_none {c : Char} {t : List Char}
    (h : matchAt (c :: t) = none) :
    splitMath (c :: t) = match splitMath t with
      | [] => [[c]]
      | p :: ps => (c :: p) :: ps := by
  unfold splitMath
  simp only [List.length_cons]
  rw [splitMathAux, h]

/-- The splitter never produces an empty list of parts. -/
theorem splitMath_ne_nil (l : List Char) : splitMath l ≠ [] := by
  cases l with
  | nil => simp [splitMath, splitMathAux]
  | cons c t =>
    cases hm : matchAt (c :: t) with
    | some p =>
      obtain ⟨m, r⟩ := p
      rw [splitMath_cons_some hm]
      simp
    | none =>
      rw [splitMath_cons_none hm]
      cases splitMath t <;> simp

/-- `scanInline` splits its input at the closing dollar. -/
theorem scanInline_sound {l u r : List Char}
    (h : scanInline l = some (u, r)) : l = u ++ ('$' :: r) := by
  induction l generalizing u r with
  | nil => simp [scanInline] at h
  | cons c t ih =>
    rw [scanInline] at h
    split_ifs at h with h1 h2
    · cases h
      subst h1
      rfl
    · cases hm : scanInline t with
      | none => rw [hm] at h; cases h
      | some p =>
        obtain ⟨u', r'⟩ := p
        rw [hm] at h
        cases h
        have := ih hm
        simp [this]

/-- `scanBlock` splits its input at the closing dollar pair. -/
theorem scanBlock_sound {l u r : List Char}
    (h : scanBlock l = some (u, r)) : l = u ++ ('$' :: '$' :: r) := by
  induction l generalizing u r with
  | nil => simp [scanBlock] at h
  | cons c t ih =>
    rw [scanBlock] at h
    split_ifs at h with h1 h2
    · cases h
      obtain ⟨hc, hh⟩ := h1
      subst hc
      cases t with
      | nil => simp at hh
      | cons b bs =>
        simp only [List.head?_cons, Option.some.injEq] at hh
        subst hh
        rfl
    · cases hm : scanBlock t with
      | none => rw [hm] at h; cases h
      | some p =>
        obtain ⟨u', r'⟩ := p
        rw [hm] at h
        cases h
        have := ih hm
        simp [this]

/-- `matchAt` splits its input into the match and the remainder. -/
theorem matchAt_sound {l m r : List Char}
    (h : matchAt l = some (m, r)) : l = m ++ r := by
  cases l with
  | nil => simp [matchAt] at h
  | cons c t =>
    cases t with
    | nil => simp [matchAt] at h
    | cons c' t' =>
      rw [matchAt] at h
      split_ifs at h with h1 h2
      · cases hb : scanBlock t' with
        | none =>
          rw [hb] at h
          cases h
          subst h1 h2
          rfl
        | some p =>
          obtain ⟨u, r'⟩ := p
          rw [hb] at h
          cases h
          subst h1 h2
          have := scanBlock_sound hb
          simp [this, List.append_assoc]
      · cases hi : scanInline (c' :: t') with
        | none => rw [hi] at h; cases h
        | some p =>
          obtain ⟨u, r'⟩ := p
          rw [hi] at h
          cases h
          subst h1
          have := scanInline_sound hi
          simp [this, List.append_assoc]

/-- Splitting preserves the text: the concatenation of all parts is the
original string. -/
theorem splitMath_flatten (l : List Char) : (splitMath l).flatten = l := by
  have H : ∀ (n : ℕ) (l : List Char), l.length ≤ n → (splitMath l).flatten = l := by
    intro n
    induction n with
    | zero =>
      intro l h
      cases l with
      | nil => rfl
      | cons c t => simp at h
    | succ n ih =>
      intro l h
      cases l with
      | nil => rfl
      | cons c t =>
        simp only [List.length_cons] at h
        cases hm : matchAt (c :: t) with
        | some p =>
          obtain ⟨m, r⟩ := p
          have hr := matchAt_length hm
          simp only [List.length_cons] at hr
          rw [splitMath_cons_some hm]
          simp only [List.flatten_cons, List.nil_append]
          rw [ih r (by omega)]
          exact (matchAt_sound hm).symm
        | none =>
          rw [splitMath_cons_none hm]
          cases hs : splitMath t with
          | nil => exact absurd hs (splitMath_ne_nil t)
          | cons p ps =>
            show ((c :: p) :: ps).flatten = c :: t
            have ht := ih t (by omega)
            rw [hs] at ht
            simp only [List.flatten_cons] at ht ⊢
            rw [List.cons_append, ht]
  exact H l.length l (Nat.le_refl _)

/-- `scanInline` consumes a dollar free, newline free prefix up to the
next dollar. -/
theorem scanInline_append {x : List Char} (l : List Char)
    (hf : ∀ c ∈ x, c ≠ '$' ∧ c ≠ '\n') :
    scanInline (x ++ ('$' :: l)) = some (x, l) := by
  induction x with
  | nil =>
    rw [List.nil_append, scanInline]
    simp
  | cons a x' ih =>
    have ha := hf a (List.mem_cons_self a x')
    rw [List.cons_append, scanInline, if_neg ha.1, if_neg ha.2]
    rw [ih (fun c hc => hf c (List.mem_cons_of_mem _ hc))]
    rfl

/-- `scanBlock` consumes a dollar free, newline free prefix up to the
next dollar pair. -/
theorem scanBlock_append {y : List Char} (l : List Char)
    (hf : ∀ c ∈ y, c ≠ '$' ∧ c ≠ '\n') :
    scanBlock (y ++ ('$' :: '$' :: l)) = some (y, l) := by
  induction y with
  | nil =>
    rw [List.nil_append, scanBlock]
    simp
  | cons a y' ih =>
    have ha := hf a (List.mem_cons_self a y')
    rw [List.cons_append, scanBlock, if_neg, if_neg ha.2]
    · rw [ih (fun c hc => hf c (List.mem_cons_of_mem _ hc))]
      rfl
    · intro hcon
      exact ha.1 hcon.1

/-- A character other than a dollar never starts a match. -/
theorem matchAt_not_dollar {c : Char} (t : List Char) (hc : c ≠ '$') :
    matchAt (c :: t) = none := by
  cases t with
  | nil => rfl
  | cons c' t' => rw [matchAt, if_neg hc]

/-- The match anchored at a balanced inline token takes exactly that
token. -/
theorem matchAt_inline {x : List Char} (l : List Char) (hx : x ≠ [])
    (hf : ∀ c ∈ x, c ≠ '$' ∧ c ≠ '\n') :
    matchAt ('$' :: (x ++ ('$' :: l))) = some ('$' :: (x ++ ['$']), l) := by
  obtain ⟨a, x', rfl⟩ := List.exists_cons_of_ne_nil hx
  have ha := hf a (List.mem_cons_self a x')
  rw [List.cons_append, matchAt, if_pos rfl, if_neg ha.1]
  have hs : scanInline (a :: (x' ++ ('$' :: l))) = some (a :: x', l) := by
    rw [← List.cons_append]
    exact scanInline_append l hf
  rw [hs]

/-- The match anchored at a balanced block token takes exactly that
token. -/
theorem matchAt_block {y : List Char} (l : List Char)
    (hf : ∀ c ∈ y, c ≠ '$' ∧ c ≠ '\n') :
    matchAt ('$' :: '$' :: (y ++ ('$' :: '$' :: l))) =
      some ('$' :: '$' :: (y ++ ['$', '$']), l) := by
  rw [matchAt, if_pos rfl, if_pos rfl, scanBlock_append l hf]

/-- A list ending in a single dollar reversed starts with a dollar. -/
theorem reverse_take_one (q : List Char) :
    ((q ++ ['$']).reverse).take 1 = ['$'] := by
  simp

/-- A list ending in a dollar pair reversed starts with a dollar pair. -/
theorem reverse_take_two (q : List Char) :
    ((q ++ ['$', '$']).reverse).take 2 = ['$', '$'] := by
  simp

/-- `slice(1, -1)` strips one delimiter from each end of an inline
span. -/
theorem sliceDrop_one (x : List Char) :
    sliceDrop 1 1 ('$' :: (x ++ ['$'])) = x := by
  have h1 : ('$' :: (x ++ ['$'])).length - 1 = x.length + 1 := by
    simp only [List.length_cons, List.length_append, List.length_nil]
    omega
  unfold sliceDrop
  rw [h1, List.take_succ_cons, List.take_left' rfl, List.drop_succ_cons,
    List.drop_zero]

/-- `slice(2, -2)` strips two delimiters from each end of a block span. -/
theorem sliceDrop_two (y : List Char) :
    sliceDrop 2 2 ('$' :: '$' :: (y ++ ['$', '$'])) = y := by
  have h1 : ('$' :: '$' :: (y ++ ['$', '$'])).length - 2 = y.length + 1 + 1 := by
    simp only [List.length_cons, List.length_append, List.length_nil]
    omega
  unfold sliceDrop
  rw [h1, List.take_succ_cons, List.take_succ_cons, List.take_left' rfl,
    List.drop_succ_cons, List.drop_succ_cons, List.drop_zero]

/-- The empty part is classified as plain text and re-renders to
itself. -/
theorem renderClassify_nil : renderSegment (classifyPart []) = [] := by
  rw [classifyPart, if_neg, if_neg]
  · rfl
  · intro hcon
    simp at hcon
  · intro hcon
    simp at hcon

/-- A part whose first character is not a dollar is classified as plain
text and re-renders to itself. -/
theorem renderClassify_cons {c : Char} (t : List Char) (hc : c ≠ '$') :
    renderSegment (classifyPart (c :: t)) = c :: t := by
  have h2 : ¬((c :: t).take 2 = ['$', '$'] ∧
      (c :: t).reverse.take 2 = ['$', '$']) := by
    intro hcon
    have h := hcon.1
    cases t with
    | nil => simp at h
    | cons b bs =>
      rw [List.take_succ_cons] at h
      exact hc (List.head_eq_of_cons_eq h)
  have h1 : ¬((c :: t).take 1 = ['$'] ∧ (c :: t).reverse.take 1 = ['$']) := by
    intro hcon
    have h := hcon.1
    rw [List.take_succ_cons, List.take_zero] at h
    exact hc (List.head_eq_of_cons_eq h)
  rw [classifyPart, if_neg h2, if_neg h1]
  rfl

/-- A full inline span with nonempty dollar free payload is classified as
inline math and re-renders to itself. -/
theorem renderClassify_inline {x : List Char} (hx : x ≠ [])
    (hf : ∀ c ∈ x, c ≠ '$') :
    renderSegment (classifyPart ('$' :: (x ++ ['$']))) =
      '$' :: (x ++ ['$']) := by
  obtain ⟨a, x', rfl⟩ := List.exists_cons_of_ne_nil hx
  have ha := hf a (List.mem_cons_self a x')
  have h2 : ¬(('$' :: ((a :: x') ++ ['$'])).take 2 = ['$', '$'] ∧
      ('$' :: ((a :: x') ++ ['$'])).reverse.take 2 = ['$', '$']) := by
    intro hcon
    have h := hcon.1
    rw [List.cons_append, List.take_succ_cons, List.take_succ_cons,
      List.take_zero] at h
    have := List.head_eq_of_cons_eq (List.tail_eq_of_cons_eq h)
    exact ha this
  have h1 : ('$' :: ((a :: x') ++ ['$'])).take 1 = ['$'] ∧
      ('$' :: ((a :: x') ++ ['$'])).reverse.take 1 = ['$'] := by
    constructor
    · rw [List.take_succ_cons, List.take_zero]
    · rw [show ('$' :: ((a :: x') ++ ['$'])) = (('$' :: a :: x') ++ ['$'])
        by simp]
      exact reverse_take_one _
  rw [classifyPart, if_neg h2, if_pos h1, sliceDrop_one]
  rfl

/-- A full block span with dollar free payload is classified as block math
and re-renders to itself. -/
theorem renderClassify_block (y : List Char) :
    renderSegment (classifyPart ('$' :: '$' :: (y ++ ['$', '$']))) =
      '$' :: '$' :: (y ++ ['$', '$']) := by
  have h2 : ('$' :: '$' :: (y ++ ['$', '$'])).take 2 = ['$', '$'] ∧
      ('$' :: '$' :: (y ++ ['$', '$'])).reverse.take 2 = ['$', '$'] := by
    constructor
    · rw [List.take_succ_cons, List.take_succ_cons, List.take_zero]
    · rw [show ('$' :: '$' :: (y ++ ['$', '$'])) =
        (('$' :: '$' :: y) ++ ['$', '$']) by simp]
      exact reverse_take_two _
  rw [classifyPart, if_pos h2, sliceDrop_two]
  rfl

/-- Over a balanced string, every part the splitter produces re-renders to
itself after classification. -/
theorem balanced_parts {l : List Char} (hb : Balanced l) :
    ∀ p ∈ splitMath l, renderSegment (classifyPart p) = p := by
  induction hb with
  | nil =>
    intro p hp
    rw [show splitMath [] = [[]] from rfl] at hp
    simp only [List.mem_singleton] at hp
    subst hp
    exact renderClassify_nil
  | plainChar hc hbl ih =>
    rename_i c l'
    intro p hp
    rw [splitMath_cons_none (matchAt_not_dollar l' hc)] at hp
    cases hs : splitMath l' with
    | nil => exact absurd hs (splitMath_ne_nil l')
    | cons q qs =>
      rw [hs] at hp
      simp only [List.mem_cons] at hp
      rcases hp with rfl | hp
      · exact renderClassify_cons q hc
      · exact ih p (by rw [hs]; exact List.mem_cons_of_mem _ hp)
  | inlineTok hx hf hbl ih =>
    rename_i x l'
    intro p hp
    rw [splitMath_cons_some (matchAt_inline l' hx hf)] at hp
    simp only [List.mem_cons] at hp
    rcases hp with rfl | hp
    · exact renderClassify_nil
    · rcases hp with rfl | hp
      · exact renderClassify_inline hx (fun c hc => (hf c hc).1)
      · exact ih p hp
  | blockTok hf hbl ih =>
    rename_i y l'
    intro p hp
    rw [splitMath_cons_some (matchAt_block l' hf)] at hp
    simp only [List.mem_cons] at hp
    rcases hp with rfl | hp
    · exact renderClassify_nil
    · rcases hp with rfl | hp
      · exact renderClassify_block y
      · exact ih p hp

/-- A balanced string beginning with a dollar pair is a block token, hence
at least four characters long. -/
theorem balanced_dollar_len {l : List Char} (hb : Balanced l)
    (h : l.take 2 = ['$', '$']) : 4 ≤ l.length := by
  cases hb with
  | nil => simp at h
  | plainChar hc hbl =>
    rw [List.take_succ_cons] at h
    exact absurd (List.head_eq_of_cons_eq h) hc
  | inlineTok hx hf hbl =>
    rename_i x l'
    obtain ⟨a, x', rfl⟩ := List.exists_cons_of_ne_nil hx
    rw [List.cons_append, List.take_succ_cons, List.take_succ_cons,
      List.take_zero] at h
    exact absurd (List.head_eq_of_cons_eq (List.tail_eq_of_cons_eq h))
      (hf a (List.mem_cons_self a x')).1
  | blockTok hf hbl =>
    simp only [List.length_cons, List.length_append, List.length_cons]
    omega

/-- A string of length at least four that starts and ends with a dollar
pair decomposes around its `slice(2, -2)` middle. -/
theorem dollar_ends_decomp {l : List Char} (h1 : l.take 2 = ['$', '$'])
    (h2 : l.reverse.take 2 = ['$', '$']) (hl : 4 ≤ l.length) :
    l = '$' :: '$' :: (sliceDrop 2 2 l ++ ['$', '$']) := by
  obtain ⟨c, t, rfl⟩ : ∃ c t, l = c :: t := by
    cases l with
    | nil => simp at h1
    | cons c t => exact ⟨c, t, rfl⟩
  obtain ⟨c', t', rfl⟩ : ∃ c' t', t = c' :: t' := by
    cases t with
    | nil => simp at h1
    | cons c' t' => exact ⟨c', t', rfl⟩
  rw [List.take_succ_cons, List.take_succ_cons, List.take_zero] at h1
  have hc : c = '$' := List.head_eq_of_cons_eq h1
  have hc' : c' = '$' := List.head_eq_of_cons_eq (List.tail_eq_of_cons_eq h1)
  subst hc hc'
  simp only [List.length_cons] at hl
  have ht : 2 ≤ t'.length := by omega
  obtain ⟨w, hw⟩ : ∃ w, t'.reverse = '$' :: '$' :: w := by
    have hrev : ('$' :: '$' :: t').reverse = t'.reverse ++ ['$', '$'] := by
      simp
    rw [hrev] at h2
    rw [List.take_append_of_le_length (by simp [List.length_reverse]; omega)]
      at h2
    cases hr : t'.reverse with
    | nil => rw [hr] at h2; simp at h2
    | cons b bs =>
      cases bs with
      | nil =>
        rw [hr] at h2
        simp at h2
      | cons b' bs' =>
        rw [hr, List.take_succ_cons, List.take_succ_cons, List.take_zero]
          at h2
        have hb : b = '$' := List.head_eq_of_cons_eq h2
        have hb' : b' = '$' :=
          List.head_eq_of_cons_eq (List.tail_eq_of_cons_eq h2)
        subst hb hb'
        exact ⟨bs', rfl⟩
  have ht' : t' = w.reverse ++ ['$', '$'] := by
    have := congrArg List.reverse hw
    simpa using this
  subst ht'
  rw [show sliceDrop 2 2 ('$' :: '$' :: (w.reverse ++ ['$', '$'])) =
    w.reverse from sliceDrop_two w.reverse]

/-- Round trip of the segmentation on balanced input: re-rendering every
segment with its delimiters restored and concatenating reproduces the
original string. -/
theorem reconstruct_segment {l : List Char} (hb : Balanced l) :
    reconstruct (segment l) = l := by
  rw [segment]
  split_ifs with h0 h1
  · subst h0
    rfl
  · rw [reconstruct]
    simp only [List.map_cons, List.map_nil, List.flatten_cons,
      List.flatten_nil, List.append_nil]
    have hlen := balanced_dollar_len hb h1.1
    have hdec := dollar_ends_decomp h1.1 h1.2 hlen
    calc renderSegment (Segment.blockMath (sliceDrop 2 2 l))
        = '$' :: '$' :: (sliceDrop 2 2 l ++ ['$', '$']) := rfl
      _ = l := hdec.symm
  · rw [reconstruct, List.map_map]
    have hmap : ∀ (ps : List (List Char)),
        (∀ p ∈ ps, renderSegment (classifyPart p) = p) →
        ps.map (renderSegment ∘ classifyPart) = ps := by
      intro ps h
      induction ps with
      | nil => rfl
      | cons q qs ih =>
        simp only [List.map_cons, Function.comp_apply]
        rw [h q (List.mem_cons_self q qs),
          ih (fun p hp => h p (List.mem_cons_of_mem _ hp))]
    rw [hmap (splitMath l) (balanced_parts hb), splitMath_flatten]

/-! ### Helper lemmas about the estimator and the renderer -/

/-- In full mode the estimator factors through the complexity value. -/
theorem getDynamicFontSize_eq_fullSize (content : List String)
    (baseSize minSize : ℚ) :
    getDynamicFontSize false content baseSize minSize =
      fullSize baseSize minSize (complexity content) := rfl

/-- In thumbnail mode the estimator is a fixed fraction of the base
size. -/
theorem getDynamicFontSize_thumbnail (content : List String)
    (baseSize minSize : ℚ) :
    getDynamicFontSize true content baseSize minSize = baseSize * 0.4 := rfl

/-- The full mode size never increases when the complexity grows. -/
theorem fullSize_anti (baseSize minSize : ℚ) (hm : 0 < minSize)
    (hmb : minSize ≤ baseSize) {c₁ c₂ : ℕ} (hc : c₁ ≤ c₂) :
    fullSize baseSize minSize c₂ ≤ fullSize baseSize minSize c₁ := by
  have hb : 0 < baseSize := lt_of_lt_of_le hm hmb
  have hcc : (c₁ : ℚ) ≤ (c₂ : ℚ) := by exact_mod_cast hc
  unfold fullSize
  split_ifs with h1 h2 h2
  · exact le_refl _
  · exact absurd (le_trans hcc h1) h2
  · have h300 : (300 : ℚ) < (c₂ : ℚ) := lt_of_not_le h1
    have hx : (0:ℚ) ≤ (((c₂ : ℚ) - 300) / (1200 - 300)) * 0.6 := by
      apply mul_nonneg (div_nonneg (by linarith) (by norm_num)) (by norm_num)
    have hscale : max (minSize / baseSize)
        (1 - (((c₂ : ℚ) - 300) / (1200 - 300)) * 0.6) ≤ 1 := by
      apply max_le
      · exact (div_le_one hb).mpr hmb
      · linarith
    calc ((⌊baseSize * max (minSize / baseSize)
          (1 - (((c₂ : ℚ) - 300) / (1200 - 300)) * 0.6)⌋ : ℤ) : ℚ)
        ≤ baseSize * max (minSize / baseSize)
          (1 - (((c₂ : ℚ) - 300) / (1200 - 300)) * 0.6) := Int.floor_le _
      _ ≤ baseSize := mul_le_of_le_one_right hb.le hscale
  · have hsc : max (minSize / baseSize)
        (1 - (((c₂ : ℚ) - 300) / (1200 - 300)) * 0.6) ≤
          max (minSize / baseSize)
            (1 - (((c₁ : ℚ) - 300) / (1200 - 300)) * 0.6) := by
      apply max_le_max (le_refl _)
      have hmono : (((c₁ : ℚ) - 300) / (1200 - 300)) * 0.6 ≤
          (((c₂ : ℚ) - 300) / (1200 - 300)) * 0.6 := by
        have h9 : ((c₁ : ℚ) - 300) / (1200 - 300) ≤
            ((c₂ : ℚ) - 300) / (1200 - 300) := by
          apply div_le_div_of_nonneg_right (by linarith) (by norm_num)
        nlinarith
      linarith
    have hmul := mul_le_mul_of_nonneg_left hsc hb.le
    exact_mod_cast Int.floor_mono hmul

/-- The full mode size never drops below the floored minimum ratio. -/
theorem fullSize_floor_bound (baseSize minSize : ℚ) (hm : 0 < minSize)
    (hmb : minSize ≤ baseSize) (c : ℕ) :
    ((⌊baseSize * (minSize / baseSize)⌋ : ℤ) : ℚ) ≤
      fullSize baseSize minSize c := by
  have hb : 0 < baseSize := lt_of_lt_of_le hm hmb
  have hmm : baseSize * (minSize / baseSize) = minSize := by
    field_simp
  unfold fullSize
  split_ifs with h
  · calc ((⌊baseSize * (minSize / baseSize)⌋ : ℤ) : ℚ)
        ≤ baseSize * (minSize / baseSize) := Int.floor_le _
      _ = minSize := hmm
      _ ≤ baseSize := hmb
  · have hmul : baseSize * (minSize / baseSize) ≤
        baseSize * max (minSize / baseSize)
          (1 - (((c : ℚ) - 300) / (1200 - 300)) * 0.6) :=
      mul_le_mul_of_nonneg_left (le_max_left _ _) hb.le
    exact_mod_cast Int.floor_mono hmul

/-- The estimator only reads the total character count and the line count
of its content. -/
theorem getDynamicFontSize_congr_stats {c₁ c₂ : List String} (b : Bool)
    (x y : ℚ) (hj : (String.join c₁).length = (String.join c₂).length)
    (hn : c₁.length = c₂.length) :
    getDynamicFontSize b c₁ x y = getDynamicFontSize b c₂ x y := by
  cases b with
  | true => rw [getDynamicFontSize_thumbnail, getDynamicFontSize_thumbnail]
  | false =>
    rw [getDynamicFontSize_eq_fullSize, getDynamicFontSize_eq_fullSize]
    unfold complexity
    rw [hj, hn]

/-- The quote arm of the dispatch. -/
theorem renderLayout_quote (b : Bool) (s : Slide) (h : s.layout = "quote") :
    renderLayout b s = Rendered.quoteCard (!b) s.content.head?
      (getDynamicFontSize b s.content (if b then 14 else 40)
        (if b then 10 else 20))
      s.title (if b then 10 else 20) := by
  rw [renderLayout, h, if_neg (by decide), if_pos rfl]

/-! ### Claim theorems -/

/-- C1: in full (non thumbnail) mode, whenever the complexity (total
character count plus forty per line) strictly exceeds 300, the estimator
returns the integer floor of the base size times the maximum of the
minimum size ratio and the linear shrink factor
`1 - ((complexity - 300) / (1200 - 300)) * 0.6`. -/
theorem c1_scaled_size (content : List String) (baseSize minSize : ℚ)
    (h : 300 < complexity content) :
    getDynamicFontSize false content baseSize minSize =
      ((⌊baseSize * max (minSize / baseSize)
        (1 - (((complexity content : ℚ) - 300) / (1200 - 300)) * 0.6)⌋ :
          ℤ) : ℚ) := by
  rw [getDynamicFontSize_eq_fullSize]
  unfold fullSize
  rw [if_neg (not_le.mpr (by exact_mod_cast h))]

set_option maxRecDepth 4096 in
/-- Witness for C1 at a single 301 character line. -/
theorem c1_scaled_size_witness :
    300 < complexity [String.mk (List.replicate 301 'a')] ∧
    getDynamicFontSize false [String.mk (List.replicate 301 'a')] 64 32 =
      ((⌊(64 : ℚ) * max ((32 : ℚ) / 64)
        (1 - (((complexity [String.mk (List.replicate 301 'a')] : ℚ) - 300) /
          (1200 - 300)) * 0.6)⌋ : ℤ) : ℚ) :=
  ⟨by decide, c1_scaled_size _ 64 32 (by decide)⟩

/-- C2: in full mode, for a fixed line count and `0 < minSize ≤ baseSize`,
the estimate never increases when the total character count grows, and it
never drops below the floor of `baseSize * (minSize / baseSize)`. -/
theorem c2_antitone_with_floor (baseSize minSize : ℚ) (n : ℕ)
    (hm : 0 < minSize) (hmb : minSize ≤ baseSize)
    (c₁ c₂ : List String) (h₁ : c₁.length = n) (h₂ : c₂.length = n)
    (hlen : (String.join c₁).length ≤ (String.join c₂).length) :
    getDynamicFontSize false c₂ baseSize minSize ≤
      getDynamicFontSize false c₁ baseSize minSize ∧
    ((⌊baseSize * (minSize / baseSize)⌋ : ℤ) : ℚ) ≤
      getDynamicFontSize false c₂ baseSize minSize := by
  rw [getDynamicFontSize_eq_fullSize, getDynamicFontSize_eq_fullSize]
  constructor
  · apply fullSize_anti baseSize minSize hm hmb
    unfold complexity
    rw [h₁, h₂]
    omega
  · exact fullSize_floor_bound baseSize minSize hm hmb _

/-- Witness for C2 on one line growing from one to two characters. -/
theorem c2_antitone_with_floor_witness :
    (0 : ℚ) < 32 ∧ (32 : ℚ) ≤ 64 ∧ (["a"] : List String).length = 1 ∧
    (["ab"] : List String).length = 1 ∧
    (String.join ["a"]).length ≤ (String.join ["ab"]).length ∧
    (getDynamicFontSize false ["ab"] 64 32 ≤
        getDynamicFontSize false ["a"] 64 32 ∧
      ((⌊(64 : ℚ) * ((32 : ℚ) / 64)⌋ : ℤ) : ℚ) ≤
        getDynamicFontSize false ["ab"] 64 32) :=
  ⟨by norm_num, by norm_num, by decide, by decide, by decide,
    c2_antitone_with_floor 64 32 1 (by norm_num) (by norm_num) ["a"] ["ab"]
      (by decide) (by decide) (by decide)⟩

/-- C4 counterexample: in thumbnail mode with base size 64 the estimator
returns exactly `64 * 0.4 = 25.6`; it is not floored to 25, contradicting
the claimed value. -/
theorem c4_counterexample :
    getDynamicFontSize true [] 64 32 = 128 / 5 ∧
    getDynamicFontSize true [] 64 32 ≠ 25 := by
  rw [getDynamicFontSize_thumbnail]
  constructor <;> norm_num

/-- C4 amended: in thumbnail mode the estimator returns `baseSize * 0.4`
exactly, without flooring; in particular
`estimateSize(content, 64, 32, true) = 25.6` for every content list. -/
theorem c4_thumbnail_no_floor (content : List String)
    (baseSize minSize : ℚ) :
    getDynamicFontSize true content baseSize minSize = baseSize * 0.4 ∧
    getDynamicFontSize true content 64 32 = 128 / 5 := by
  refine ⟨rfl, ?_⟩
  rw [getDynamicFontSize_thumbnail]
  norm_num

/-- C7: in full mode, content whose complexity is at most 300 renders at
the unscaled base size. -/
theorem c7_easy_threshold (content : List String) (baseSize minSize : ℚ)
    (h : complexity content ≤ 300) :
    getDynamicFontSize false content baseSize minSize = baseSize := by
  rw [getDynamicFontSize_eq_fullSize]
  unfold fullSize
  rw [if_pos (by exact_mod_cast h)]

/-- Witness for C7: `estimateSize(["short"], 64, 32, false) = 64`. -/
theorem c7_easy_threshold_witness :
    complexity ["short"] ≤ 300 ∧
    getDynamicFontSize false ["short"] 64 32 = 64 :=
  ⟨by decide, c7_easy_threshold ["short"] 64 32 (by decide)⟩

/-- C10: in thumbnail mode the result is independent of `minSize` and is
not clamped by it: with base 24 and minimum 12 the result is `9.6`, below
the minimum. -/
theorem c10_thumbnail_ignores_min (content : List String)
    (baseSize m₁ m₂ : ℚ) :
    getDynamicFontSize true content baseSize m₁ = baseSize * 0.4 ∧
    getDynamicFontSize true content baseSize m₁ =
      getDynamicFontSize true content baseSize m₂ ∧
    getDynamicFontSize true content 24 12 = 48 / 5 ∧ (48 / 5 : ℚ) < 12 := by
  refine ⟨rfl, ?_, ?_, by norm_num⟩
  · rw [getDynamicFontSize_thumbnail, getDynamicFontSize_thumbnail]
  · rw [getDynamicFontSize_thumbnail]
    norm_num

/-- C5 counterexample: `SmartText` does not trim before testing the `$$`
fast path, so a string whose trimmed form is `$$`-wrapped but which
carries surrounding whitespace is split into three segments instead of a
single block segment. -/
theorem c5_counterexample :
    segment [' ', '$', '$', 'x', '$', '$'] =
      [Segment.plain [' '], Segment.blockMath ['x'], Segment.plain []] ∧
    segment [' ', '$', '$', 'x', '$', '$'] ≠ [Segment.blockMath ['x']] := by
  constructor
  · decide
  · decide

/-- C5 amended: for every nonempty string that literally starts and ends
with `$$` (no trimming), `segment` returns exactly one block math segment
whose payload is the string with the `$$` delimiters stripped
(`slice(2, -2)`). -/
theorem c5_fast_path (t : List Char) (h0 : t ≠ [])
    (h1 : t.take 2 = ['$', '$']) (h2 : t.reverse.take 2 = ['$', '$']) :
    segment t = [Segment.blockMath (sliceDrop 2 2 t)] := by
  rw [segment, if_neg h0, if_pos ⟨h1, h2⟩]

/-- Witness for the amended C5: `segment("$$x^2$$")` is one block segment
with payload `x^2`. -/
theorem c5_fast_path_witness :
    (['$', '$', 'x', '^', '2', '$', '$'] : List Char) ≠ [] ∧
    (['$', '$', 'x', '^', '2', '$', '$'] : List Char).take 2 = ['$', '$'] ∧
    (['$', '$', 'x', '^', '2', '$', '$'] : List Char).reverse.take 2 =
      ['$', '$'] ∧
    segment ['$', '$', 'x', '^', '2', '$', '$'] =
      [Segment.blockMath ['x', '^', '2']] := by
  refine ⟨by decide, by decide, by decide, ?_⟩
  rw [c5_fast_path ['$', '$', 'x', '^', '2', '$', '$'] (by decide)
    (by decide) (by decide)]
  decide

/-- C6: segmenting a string with balanced dollar delimiters and
concatenating the payloads of all produced segments in order, re-wrapping
math payloads in their original delimiters, reproduces the original
string. -/
theorem c6_roundtrip (l : List Char) (hb : Balanced l) :
    reconstruct (segment l) = l :=
  reconstruct_segment hb

/-- Witness for C6 on the balanced string `a$x$b`. -/
theorem c6_roundtrip_witness :
    Balanced ['a', '$', 'x', '$', 'b'] ∧
    reconstruct (segment ['a', '$', 'x', '$', 'b']) =
      ['a', '$', 'x', '$', 'b'] := by
  have hb : Balanced ['a', '$', 'x', '$', 'b'] :=
    Balanced.plainChar (by decide)
      (@Balanced.inlineTok ['x'] ['b'] (by decide) (by decide)
        (Balanced.plainChar (by decide) Balanced.nil))
  exact ⟨hb, c6_roundtrip _ hb⟩

/-- C3 counterexample: two quote slides agreeing on title, subtitle and
`content[0]` but differing in later content entries render differently,
because the body font size is computed from the whole content list. -/
theorem c3_counterexample :
    (Slide.mk "s" "T" none ["q"] "quote" none none none).title =
      (Slide.mk "s" "T" none ("q" :: List.replicate 9 "x") "quote"
        none none none).title ∧
    (Slide.mk "s" "T" none ["q"] "quote" none none none).subtitle =
      (Slide.mk "s" "T" none ("q" :: List.replicate 9 "x") "quote"
        none none none).subtitle ∧
    (Slide.mk "s" "T" none ["q"] "quote" none none none).content.head? =
      (Slide.mk "s" "T" none ("q" :: List.replicate 9 "x") "quote"
        none none none).content.head? ∧
    renderLayout false (Slide.mk "s" "T" none ["q"] "quote" none none none) ≠
      renderLayout false (Slide.mk "s" "T" none
        ("q" :: List.replicate 9 "x") "quote" none none none) := by
  refine ⟨rfl, rfl, rfl, ?_⟩
  have hA : getDynamicFontSize false ["q"] 40 20 = 40 := by
    rw [getDynamicFontSize_eq_fullSize,
      show complexity ["q"] = 41 from by decide]
    norm_num [fullSize]
  have hB : getDynamicFontSize false ("q" :: List.replicate 9 "x") 40 20 =
      37 := by
    rw [getDynamicFontSize_eq_fullSize,
      show complexity ("q" :: List.replicate 9 "x") = 410 from by decide]
    rw [fullSize, if_neg (by norm_num)]
    rw [show max ((20 : ℚ) / 40)
        (1 - (((410 : ℕ) : ℚ) - 300) / (1200 - 300) * 0.6) = 139 / 150 from
      by rw [max_eq_right (by norm_num)]; norm_num]
    rw [show (40 : ℚ) * (139 / 150) = 556 / 15 from by norm_num]
    rw [show ⌊(556 : ℚ) / 15⌋ = 37 from Int.floor_eq_iff.mpr (by norm_num)]
    norm_num
  intro hcon
  rw [renderLayout_quote false _ rfl, renderLayout_quote false _ rfl]
    at hcon
  norm_num at hcon
  rw [hA, hB] at hcon
  exact absurd hcon (by norm_num)

/-- C3 amended: the quote layout renders only `content[0]` as text, but
its body font size is computed from the entire content list; two quote
slides agreeing on title, subtitle, `content[0]`, total character count
and line count render identically. -/
theorem c3_quote_head_and_stats (b : Bool) (s₁ s₂ : Slide)
    (hl₁ : s₁.layout = "quote") (hl₂ : s₂.layout = "quote")
    (ht : s₁.title = s₂.title) (hsub : s₁.subtitle = s₂.subtitle)
    (hh : s₁.content.head? = s₂.content.head?)
    (hj : (String.join s₁.content).length = (String.join s₂.content).length)
    (hn : s₁.content.length = s₂.content.length) :
    renderLayout b s₁ = renderLayout b s₂ := by
  rw [renderLayout_quote b s₁ hl₁, renderLayout_quote b s₂ hl₂, ht, hh,
    getDynamicFontSize_congr_stats b _ _ hj hn]

/-- Witness for the amended C3 on two quote slides with permuted tail
content of equal total length. -/
theorem c3_quote_head_and_stats_witness :
    (Slide.mk "s" "T" none ["q", "ab"] "quote" none none none).layout =
      "quote" ∧
    (Slide.mk "s" "T" none ["q", "ba"] "quote" none none none).layout =
      "quote" ∧
    (String.join ["q", "ab"]).length = (String.join ["q", "ba"]).length ∧
    renderLayout false
        (Slide.mk "s" "T" none ["q", "ab"] "quote" none none none) =
      renderLayout false
        (Slide.mk "s" "T" none ["q", "ba"] "quote" none none none) :=
  ⟨rfl, rfl, by decide,
    c3_quote_head_and_stats false _ _ rfl rfl rfl rfl rfl (by decide) rfl⟩

/-- C8: the split layout gives the left column the first `ceil(n / 2)`
content items in order, the right column the rest in order, and sizes both
columns with one font size computed from the combined content list. -/
theorem c8_split_columns (b : Bool) (s : Slide) (h : s.layout = "split") :
    renderLayout b s = Rendered.splitCard s.title
        (s.content.take (ceilHalf s.content.length))
        (s.content.drop (ceilHalf s.content.length))
        (getDynamicFontSize b s.content (if b then 9 else 18)
          (if b then 7 else 12)) ∧
    (s.content.take (ceilHalf s.content.length)).length =
      ceilHalf s.content.length ∧
    (s.content.drop (ceilHalf s.content.length)).length =
      s.content.length - ceilHalf s.content.length ∧
    s.content.take (ceilHalf s.content.length) ++
      s.content.drop (ceilHalf s.content.length) = s.content := by
  refine ⟨?_, ?_, List.length_drop _ _, List.take_append_drop _ _⟩
  · rw [renderLayout, h, if_neg (by decide), if_neg (by decide),
      if_neg (by decide), if_pos rfl]
  · rw [List.length_take]
    have hle : ceilHalf s.content.length ≤ s.content.length := by
      unfold ceilHalf
      omega
    omega

/-- Witness for C8 on a five item content list: three items left, two
right. -/
theorem c8_split_columns_witness :
    (Slide.mk "s" "T" none ["1", "2", "3", "4", "5"] "split"
      none none none).layout = "split" ∧
    ((["1", "2", "3", "4", "5"] : List String).take
      (ceilHalf 5)).length = 3 ∧
    ((["1", "2", "3", "4", "5"] : List String).drop
      (ceilHalf 5)).length = 2 ∧
    (["1", "2", "3", "4", "5"] : List String).take (ceilHalf 5) ++
      (["1", "2", "3", "4", "5"] : List String).drop (ceilHalf 5) =
      ["1", "2", "3", "4", "5"] := by
  have h := c8_split_columns false
    (Slide.mk "s" "T" none ["1", "2", "3", "4", "5"] "split" none none none)
    rfl
  exact ⟨rfl, h.2.1, h.2.2.1, h.2.2.2⟩

/-- C9: every layout tag outside the closed six tag set renders through
the same default arm as the `content` tag. -/
theorem c9_unknown_tag (b : Bool) (s : Slide) (tag : String)
    (h : tag ∉ (["title", "quote", "image-left", "image-right", "split",
      "content"] : List String)) :
    renderLayout b { s with layout := tag } =
      renderLayout b { s with layout := "content" } := by
  simp only [List.mem_cons, List.not_mem_nil, or_false, not_or] at h
  obtain ⟨h1, h2, h3, h4, h5, h6⟩ := h
  simp only [renderLayout]
  rw [if_neg h1, if_neg (by decide : ¬("content" : String) = "title"),
    if_neg h2, if_neg (by decide : ¬("content" : String) = "quote"),
    if_neg (fun hc => hc.elim h3 h4),
    if_neg (by decide : ¬(("content" : String) = "image-left" ∨
      ("content" : String) = "image-right")),
    if_neg h5, if_neg (by decide : ¬("content" : String) = "split")]

/-- Witness for C9 at the tag `bogus-tag`. -/
theorem c9_unknown_tag_witness :
    ("bogus-tag" : String) ∉ (["title", "quote", "image-left",
      "image-right", "split", "content"] : List String) ∧
    renderLayout false
        { Slide.mk "s" "T" none ["c"] "content" none none none with
          layout := "bogus-tag" } =
      renderLayout false
        { Slide.mk "s" "T" none ["c"] "content" none none none with
          layout := "content" } :=
  ⟨by decide,
    c9_unknown_tag false (Slide.mk "s" "T" none ["c"] "content" none none
      none) "bogus-tag" (by decide)⟩

end PresentationArchitect
